import Mathlib

/-!
Shallow embedding of the feed-forward neural network of this repository
(include/common.h, include/activation.h, include/network.h, instantiated in
src/main.cpp).  The numeric template parameter T (double in main.cpp) is
modelled by an arbitrary linear ordered field K; the transcendental library
functions std::exp and std::log are passed in explicitly as function
parameters.  C++ vectors are Lean lists; a raw, bounds-unchecked
std::vector operator[] read is modelled with List.getD (headD/tail when the
index is threaded through a recursion); a C++ exception is modelled with
Except.  Every theorem that uses a default value supplies hypotheses that
keep all accesses in bounds, so that the default never matters.
-/

namespace RedNeuronal

/-- The kinds of C++ exceptions the embedded code can raise:
std::invalid_argument (thrown by dot_product in common.h) and
std::length_error (thrown by a std::vector allocation when a negative int
size is converted to an enormous size_t in the NeuralNetwork constructor). -/
inductive Err where
  | invalidArgument
  | lengthError
deriving DecidableEq

/-- Decidable equality for Except, so that concrete runs of the embedded
fallible operations can be checked by decide. -/
instance {ε α : Type} [DecidableEq ε] [DecidableEq α] : DecidableEq (Except ε α) :=
  fun a b =>
    match a, b with
    | .error e, .error f =>
        if h : e = f then isTrue (congrArg Except.error h)
        else isFalse (fun c => h (Except.error.inj c))
    | .error _, .ok _ => isFalse (fun c => Except.noConfusion c)
    | .ok _, .error _ => isFalse (fun c => Except.noConfusion c)
    | .ok u, .ok v =>
        if h : u = v then isTrue (congrArg Except.ok h)
        else isFalse (fun c => h (Except.ok.inj c))

variable {K : Type} [LinearOrderedField K]

/-- The accumulation loop of dot_product (common.h line 105-108):
result starts at 0 and adds a[i] * b[i] for each i. -/
def dotSum (a b : List K) : K :=
  (List.zipWith (fun x y => x * y) a b).sum

/-- common.h dot_product: throws std::invalid_argument when the two sizes
differ, otherwise returns the sum of pairwise products. -/
def dot_product (a b : List K) : Except Err K :=
  if a.length = b.length then .ok (dotSum a b) else .error .invalidArgument

/-- ReLU, std::max(0, x) (activation.h relu; inlined as a lambda in
network.h forward_propagation). -/
def relu (x : K) : K := max 0 x

/-- activation.h relu_derivative: 1 if x > 0 else 0 (inlined as a
conditional expression in network.h backward_propagation). -/
def relu_derivative (x : K) : K := if 0 < x then 1 else 0

/-- `*std::max_element(v.begin(), v.end())` for the nonempty vectors the
code applies it to (common.h softmax line 172); the empty case (undefined
behaviour in C++) is given the junk value 0. -/
def maxElem : List K → K
  | [] => 0
  | x :: xs => xs.foldl max x

/-- common.h softmax (textually the same algorithm as Activation::softmax
in activation.h): subtract the maximum element, exponentiate, and divide
each entry by the sum of the exponentials.  exp is the std::exp parameter. -/
def softmax (exp : K → K) (v : List K) : List K :=
  let m := maxElem v
  let e := v.map (fun x => exp (x - m))
  e.map (fun x => x / e.sum)

/-- The state of a NeuralNetwork<T> object (network.h lines 15-19):
per-layer weight matrices and bias vectors, the forward cache
(activations and z_values), and the learning rate. -/
structure Network (K : Type) where
  weights : List (List (List K))
  biases : List (List K)
  activations : List (List K)
  z_values : List (List K)
  learning_rate : K
deriving DecidableEq

/-- The z-computation loop of forward_propagation (network.h lines 35-38):
z[j] = dot_product(w[j], x) + b[j] for each row j of the layer's weight
matrix.  b is threaded by headD/tail so that entry j is b.getD j 0
(a raw b[j] read in C++). -/
def computeZ (x : List K) : List (List K) → List K → Except Err (List K)
  | [], _ => .ok []
  | row :: w, b =>
      match dot_product row x with
      | .error e => .error e
      | .ok d =>
          match computeZ x w b.tail with
          | .error e => .error e
          | .ok rest => .ok ((d + b.headD 0) :: rest)

/-- The layer loop of forward_propagation (network.h lines 33-50), acting on
the weight and bias lists: returns (z_values pushed, activations pushed,
final output).  The last layer (empty tail) gets softmax, every other layer
gets ReLU. -/
def forwardLayers (exp : K → K) :
    List (List (List K)) → List (List K) → List K →
    Except Err (List (List K) × List (List K) × List K)
  | [], _, x => .ok ([], [], x)
  | w :: ws, bs, x =>
      match computeZ x w (bs.headD []) with
      | .error e => .error e
      | .ok z =>
          match ws with
          | [] => .ok ([z], [softmax exp z], softmax exp z)
          | w2 :: ws2 =>
              match forwardLayers exp (w2 :: ws2) bs.tail (z.map relu) with
              | .error e => .error e
              | .ok r => .ok (z :: r.1, z.map relu :: r.2.1, r.2.2)

/-- network.h forward_propagation: clears the cache, runs the layer loop,
stores the new cache, and returns the final activation. -/
def forward_propagation (exp : K → K) (net : Network K) (input : List K) :
    Except Err (Network K × List K) :=
  match forwardLayers exp net.weights net.biases input with
  | .error e => .error e
  | .ok (zs, as, out) => .ok ({ net with z_values := zs, activations := as }, out)

/-- The scan performed by std::max_element: cur is the index of the next
element, best/bv the index and value of the current first maximum; the
stored maximum is replaced only on a strictly greater element, so ties keep
the earliest index. -/
def argmaxAux : ℕ → ℕ → K → List K → ℕ
  | _, best, _, [] => best
  | cur, best, bv, x :: xs =>
      if bv < x then argmaxAux (cur + 1) cur x xs
      else argmaxAux (cur + 1) best bv xs

/-- `std::distance(v.begin(), std::max_element(v.begin(), v.end()))`
(network.h predict, line 159); 0 on the empty vector. -/
def argmaxIdx : List K → ℕ
  | [] => 0
  | x :: xs => argmaxAux 1 0 x xs

/-- network.h predict: forward propagation followed by the arg-max index of
the output (the C++ int result is always the nonnegative distance from
begin, so it is modelled as ℕ). -/
def predict (exp : K → K) (net : Network K) (input : List K) :
    Except Err (Network K × ℕ) :=
  match forward_propagation exp net input with
  | .error e => .error e
  | .ok (net1, out) => .ok (net1, argmaxIdx out)

/-- The loop of evaluate (network.h lines 143-148), threading the network
(predict mutates the cache) and the running count of correct predictions;
labels is threaded by tail so that iteration i reads labels.getD i 0
(a raw labels[i] read in C++). -/
def evalLoop (exp : K → K) :
    List (List K) → List ℤ → Network K → ℕ → Except Err (Network K × ℕ)
  | [], _, net, correct => .ok (net, correct)
  | inp :: inps, labels, net, correct =>
      match predict exp net inp with
      | .error e => .error e
      | .ok r =>
          evalLoop exp inps labels.tail r.1
            (if (r.2 : ℤ) = labels.headD 0 then correct + 1 else correct)

/-- network.h evaluate: count correct predictions, then return
static_cast<double>(correct) / inputs.size() * 100.0.  In C++ an empty
inputs gives 0.0/0 = NaN; NaN is not representable in a field, so the
division-by-zero case yields Lean's junk value 0 — theorems about the
returned value therefore require inputs to be nonempty. -/
def evaluate (exp : K → K) (net : Network K) (inputs : List (List K))
    (labels : List ℤ) : Except Err (Network K × K) :=
  match evalLoop exp inputs labels net 0 with
  | .error e => .error e
  | .ok (net1, correct) => .ok (net1, (correct : K) / (inputs.length : K) * 100)

/-- The initial delta of backward_propagation (network.h lines 62-65):
delta = activations.back(), then delta[i] -= target[i] elementwise over
delta's indices (target[i] is a raw read, modelled by headD/tail). -/
def vecSubPad : List K → List K → List K
  | [], _ => []
  | x :: xs, t => (x - t.headD 0) :: vecSubPad xs t.tail

/-- The inner j-loop of the weight update (network.h line 71-73):
row[j] -= lr * di * prev[j], prev[j] a raw read. -/
def updateRow (lr di : K) : List K → List K → List K
  | [], _ => []
  | x :: xs, prev => (x - lr * di * prev.headD 0) :: updateRow lr di xs prev.tail

/-- The i-loop of the weight update (network.h lines 70-73):
w[i][j] -= lr * delta[i] * prev[j]. -/
def updateMatrix (lr : K) : List (List K) → List K → List K → List (List K)
  | [], _, _ => []
  | row :: w, delta, prev =>
      updateRow lr (delta.headD 0) row prev :: updateMatrix lr w delta.tail prev

/-- The bias update (network.h line 74): b[i] -= lr * delta[i], performed
for i < rows where rows is the weight matrix's row count (the loop bound in
the C++ is weights[layer].size()); entries of b beyond rows are untouched. -/
def updateBias (lr : K) : ℕ → List K → List K → List K
  | 0, b, _ => b
  | _ + 1, [], _ => []
  | n + 1, x :: bs, delta => (x - lr * delta.headD 0) :: updateBias lr n bs delta.tail

/-- The propagated-error computation (network.h lines 79-85):
new_delta has length weights[layer][0].size(); entry j accumulates
delta[i] * w[i][j] over the rows i and is then multiplied by the ReLU
derivative of zprev[j].  All reads are raw operator[] reads. -/
def propagateDelta (w : List (List K)) (delta zprev : List K) : List K :=
  (List.range (w.headD []).length).map (fun j =>
    (List.range w.length).foldl
      (fun acc i => acc + delta.getD i 0 * ((w.getD i []).getD j 0)) 0 *
      (if 0 < zprev.getD j 0 then 1 else 0))

/-- The downward layer loop of backward_propagation (network.h lines 68-88).
Fuel n+1 means layer n is processed next: read w = weights[n], update it and
biases[n] in place (List.set), and, when n > 0, compute the new delta from
the updated weights and z_values[n-1] before descending. -/
def backwardLoop (lr : K) (input : List K) (acts zs : List (List K)) :
    ℕ → List (List (List K)) → List (List K) → List K →
    List (List (List K)) × List (List K)
  | 0, ws, bs, _ => (ws, bs)
  | n + 1, ws, bs, delta =>
      let w := ws.getD n []
      let prev := if n = 0 then input else acts.getD (n - 1) []
      let w1 := updateMatrix lr w delta prev
      let b1 := updateBias lr w.length (bs.getD n []) delta
      let delta1 := if n = 0 then delta
        else propagateDelta w1 delta (zs.getD (n - 1) [])
      backwardLoop lr input acts zs n (ws.set n w1) (bs.set n b1) delta1

/-- network.h backward_propagation: initial delta from the cached final
activation and the target, then the downward layer loop over all layers. -/
def backward_propagation (net : Network K) (input target : List K) : Network K :=
  { net with
    weights := (backwardLoop net.learning_rate input net.activations net.z_values
      net.weights.length net.weights net.biases
      (vecSubPad (net.activations.getLastD []) target)).1,
    biases := (backwardLoop net.learning_rate input net.activations net.z_values
      net.weights.length net.weights net.biases
      (vecSubPad (net.activations.getLastD []) target)).2 }

/-- common.h EPSILON = 1e-6, added inside the logarithm of the loss. -/
def EPSILON : K := 1 / 1000000

/-- The per-sample loss accumulation of train (network.h lines 127-129):
sum over j < label.length of label[j] * log(output[j] + EPSILON)
(output[j] a raw read); the caller subtracts this from the total. -/
def sampleLoss (log : K → K) : List K → List K → K
  | [], _ => 0
  | l :: ls, out => l * log (out.headD 0 + EPSILON) + sampleLoss log ls out.tail

/-- The sample loop of one epoch of train (network.h lines 122-130):
forward, then backward with labels[i] (raw read, threaded by headD/tail),
subtracting the sample's cross-entropy term from the accumulator. -/
def trainSamples (exp log : K → K) :
    List (List K) → List (List K) → Network K → K → Except Err (Network K × K)
  | [], _, net, acc => .ok (net, acc)
  | inp :: inps, labels, net, acc =>
      match forward_propagation exp net inp with
      | .error e => .error e
      | .ok r =>
          trainSamples exp log inps labels.tail
            (backward_propagation r.1 inp (labels.headD []))
            (acc - sampleLoss log (labels.headD []) r.2)

/-- network.h train: for each epoch run the sample loop starting from total
loss 0 and record the reported mean loss total/inputs.size(); the returned
list holds one mean loss per epoch, the observable of the std::cout line. -/
def train (exp log : K → K) (inputs labels : List (List K)) :
    ℕ → Network K → Except Err (Network K × List K)
  | 0, net => .ok (net, [])
  | e + 1, net =>
      match trainSamples exp log inputs labels net 0 with
      | .error err => .error err
      | .ok r =>
          match train exp log inputs labels e r.1 with
          | .error err => .error err
          | .ok rest => .ok (rest.1, (r.2 / (inputs.length : K)) :: rest.2)

/-- One weight matrix of the constructor (network.h lines 103-109):
rows × cols entries drawn row-major from the random stream g starting at
draw index c0. -/
def mkMatrix (g : ℕ → K) (c0 rows cols : ℕ) : List (List K) :=
  (List.range rows).map (fun r => (List.range cols).map (fun c => g (c0 + r * cols + c)))

/-- The constructor loop (network.h lines 102-110) over consecutive
architecture entries a (previous layer size) and b (this layer size):
weight matrix b × a filled from the stream, bias vector of b zeros. -/
def buildLayers (g : ℕ → K) : ℕ → List ℕ → List (List (List K)) × List (List K)
  | _, [] => ([], [])
  | _, [_] => ([], [])
  | c0, a :: b :: rest =>
      let r := buildLayers g (c0 + b * a) (b :: rest)
      (mkMatrix g c0 b a :: r.1, List.replicate b 0 :: r.2)

/-- network.h NeuralNetwork constructor (lines 97-111).  It performs no
validation: fewer than 2 architecture entries leave the loop body
unexecuted (an empty network).  A negative entry makes a std::vector
allocation request a size above max_size, which raises std::length_error;
that is the only failure.  The mt19937 draws are modelled by the stream g. -/
def construct (arch : List ℤ) (lr : K) (g : ℕ → K) : Except Err (Network K) :=
  if arch.length < 2 then
    .ok { weights := [], biases := [], activations := [], z_values := [],
          learning_rate := lr }
  else if arch.any (fun a => decide (a < 0)) then .error .lengthError
  else
    let p := buildLayers g 0 (arch.map Int.toNat)
    .ok { weights := p.1, biases := p.2, activations := [], z_values := [],
          learning_rate := lr }

/-- Consistency of the dimensions of a network with an input length n,
layer by layer: every weight row of the layer has length n, the bias has
one entry per weight row, and the next layer must fit this layer's row
count; the weight and bias lists have equal length. -/
def dimsOk : List (List (List K)) → List (List K) → ℕ → Bool
  | [], [], _ => true
  | w :: ws, b :: bs, n =>
      w.all (fun row => row.length == n) && (b.length == w.length) &&
        dimsOk ws bs w.length
  | _, _, _ => false

/-- Specification-side W·x: one dot product per weight row. -/
def matVecSpec (w : List (List K)) (x : List K) : List K :=
  w.map (fun row => dotSum row x)

/-- Specification-side forward pass, following the spec text of section 4.2:
for each layer in order, z = W·x + b, ReLU elementwise except on the last
layer, softmax on the last layer; both z and the activation are recorded
for every layer and the final activation is the result. -/
def specForward (exp : K → K) :
    List (List (List K) × List K) → List K →
    List (List K) × List (List K) × List K
  | [], x => ([], [], x)
  | (w, b) :: rest, x =>
      let z := List.zipWith (fun u v => u + v) (matVecSpec w x) b
      match rest with
      | [] => ([z], [softmax exp z], softmax exp z)
      | _ :: _ =>
          let a := z.map relu
          let r := specForward exp rest a
          (z :: r.1, a :: r.2.1, r.2.2)

/-- Specification-side weight update of section 4.3 step 2:
weight[i][j] -= lr * delta[i] * prev[j] for every i, j. -/
def specUpdateW (lr : K) (w : List (List K)) (delta prev : List K) :
    List (List K) :=
  w.mapIdx (fun i row => row.mapIdx (fun j x => x - lr * delta.getD i 0 * prev.getD j 0))

/-- Specification-side bias update of section 4.3 step 2:
bias[i] -= lr * delta[i] for every i. -/
def specUpdateB (lr : K) (b delta : List K) : List K :=
  b.mapIdx (fun i x => x - lr * delta.getD i 0)

/-- Specification-side propagated error of section 4.3 step 3:
new_delta[j] = (sum over i of delta[i] * w[i][j]) times the ReLU derivative
of the preceding layer's pre-activation at j; j ranges over the layer's
input features (the length of the first weight row). -/
def specNewDelta (w : List (List K)) (delta zprev : List K) : List K :=
  (List.range (w.headD []).length).map (fun j =>
    ((List.range w.length).map (fun i => delta.getD i 0 * (w.getD i []).getD j 0)).sum *
      relu_derivative (zprev.getD j 0))

/-- Specification-side backward pass over the per-layer data given in
reverse order (last layer first); each tuple is (weight matrix, bias,
previous activation, previous pre-activation).  The updated weights are
used for the propagated error, exactly as the claim's sequencing states
(weights are decremented before new_delta is computed). -/
def specBackRev (lr : K) :
    List (List (List K) × List K × List K × List K) → List K →
    List (List (List K) × List K)
  | [], _ => []
  | (w, b, prev, zprev) :: rest, delta =>
      let w1 := specUpdateW lr w delta prev
      let b1 := specUpdateB lr b delta
      match rest with
      | [] => [(w1, b1)]
      | _ :: _ => (w1, b1) :: specBackRev lr rest (specNewDelta w1 delta zprev)

/-- The per-layer data consumed by the backward pass: for layer n its weight
matrix, bias vector, previous activation (the raw input for layer 0, the
cached activation n-1 otherwise) and previous pre-activation (cached
z_values n-1; unused dummy for layer 0). -/
def layerData (input : List K) (acts zs : List (List K))
    (ws : List (List (List K))) (bs : List (List K)) :
    List (List (List K) × List K × List K × List K) :=
  (List.range ws.length).map (fun n =>
    (ws.getD n [], bs.getD n [],
      if n = 0 then input else acts.getD (n - 1) [],
      if n = 0 then [] else zs.getD (n - 1) []))

/-- Specification-side backward_propagation, following the claim text of
section 4.3: initial delta = final activation minus target elementwise,
then the reverse-order layer recursion. -/
def specBackward (net : Network K) (input target : List K) : Network K :=
  { net with
    weights := ((specBackRev net.learning_rate
      ((layerData input net.activations net.z_values net.weights net.biases).reverse)
      (List.zipWith (fun a t => a - t) (net.activations.getLastD [])
        target)).reverse).map Prod.fst,
    biases := ((specBackRev net.learning_rate
      ((layerData input net.activations net.z_values net.weights net.biases).reverse)
      (List.zipWith (fun a t => a - t) (net.activations.getLastD [])
        target)).reverse).map Prod.snd }

/-- The value predict would return, as a function of the parameters only
(forward propagation reads no cache, so this is well defined). -/
def predictValue (exp : K → K) (ws : List (List (List K))) (bs : List (List K))
    (input : List K) : Except Err ℕ :=
  match forwardLayers exp ws bs input with
  | .error e => .error e
  | .ok r => .ok (argmaxIdx r.2.2)

/-- The number of samples whose predicted class equals the integer label,
as a function of the parameters only. -/
def countCorrect (exp : K → K) (ws : List (List (List K))) (bs : List (List K)) :
    List (List K) → List ℤ → ℕ
  | [], _ => 0
  | inp :: inps, labels =>
      (match predictValue exp ws bs inp with
        | .ok p => if (p : ℤ) = labels.headD 0 then 1 else 0
        | .error _ => 0) + countCorrect exp ws bs inps labels.tail

/-- Softmax without the maximum subtraction: exponentiate directly and
normalize; the mathematical definition the stability trick must agree with. -/
def softmaxNoShift (exp : K → K) (v : List K) : List K :=
  let e := v.map exp
  e.map (fun x => x / e.sum)

/-! ## Theorems -/

/-- C1. Counterexample: constructing from an architecture with fewer than
2 entries (here the empty architecture) does not fail at all — it returns
a usable (empty) network, refuting the claim that every such construction
fails with an invalid-argument error. -/
theorem construct_empty_arch_ok :
    construct ([] : List ℤ) (1 : ℚ) (fun _ => 0) =
      .ok { weights := [], biases := [], activations := [], z_values := [],
            learning_rate := 1 } := rfl

/-- C1 amended: the constructor performs no architecture validation and
never raises invalid-argument.  Every architecture whose entries are all
nonnegative — including architectures with fewer than 2 entries and
architectures containing 0 — constructs successfully; an architecture of
length ≥ 2 containing a negative entry fails, but with the length error of
the std::vector allocation, not with an invalid-argument error. -/
theorem construct_no_validation (arch : List ℤ) (lr : K) (g : ℕ → K) :
    ((∀ a ∈ arch, 0 ≤ a) → (construct arch lr g).isOk = true) ∧
    (2 ≤ arch.length → (∃ a ∈ arch, a < 0) →
      construct arch lr g = .error .lengthError) := by
  constructor
  · intro h
    unfold construct
    split
    · rfl
    · have hany : arch.any (fun a => decide (a < 0)) = false := by
        simp only [List.any_eq_false, decide_eq_true_eq, not_lt]
        exact h
      rw [hany]
      rfl
  · intro hlen hex
    have h2 : ¬ arch.length < 2 := by omega
    have hany : arch.any (fun a => decide (a < 0)) = true := by
      simp only [List.any_eq_true, decide_eq_true_eq]
      exact hex
    unfold construct
    rw [if_neg h2, hany]
    rfl

theorem construct_no_validation_witness :
    (∀ a ∈ ([2, 0] : List ℤ), 0 ≤ a) ∧
      (construct ([2, 0] : List ℤ) (1 : ℚ) (fun _ => 0)).isOk = true :=
  ⟨by decide, (construct_no_validation [2, 0] 1 (fun _ => 0)).1 (by decide)⟩

/-- Frame property of the forward pass: a successful forward_propagation
returns a network whose weights, biases and learning rate are those of the
argument (only the two cache fields are replaced). -/
theorem forward_frame (exp : K → K) (net net1 : Network K) (input out : List K)
    (h : forward_propagation exp net input = .ok (net1, out)) :
    net1.weights = net.weights ∧ net1.biases = net.biases ∧
      net1.learning_rate = net.learning_rate := by
  unfold forward_propagation at h
  rcases hf : forwardLayers exp net.weights net.biases input with e | ⟨zs, as, o⟩ <;>
    rw [hf] at h
  · exact absurd h (by simp)
  · simp only [Except.ok.injEq, Prod.mk.injEq] at h
    obtain ⟨hnet, -⟩ := h
    subst hnet
    exact ⟨rfl, rfl, rfl⟩

/-- C9. A call to forward propagation mutates only the cache: whenever it
succeeds, the returned network agrees with the original on the weight
matrices, the bias vectors and the learning rate, for every input. -/
theorem forward_mutates_only_cache (exp : K → K) (net net1 : Network K)
    (input out : List K)
    (h : forward_propagation exp net input = .ok (net1, out)) :
    net1.weights = net.weights ∧ net1.biases = net.biases ∧
      net1.learning_rate = net.learning_rate :=
  forward_frame exp net net1 input out h

/-- A fixed tiny concrete network over ℚ used by the witnesses. -/
def netA : Network ℚ :=
  { weights := [[[1]]], biases := [[0]], activations := [], z_values := [],
    learning_rate := 1 }

/-- A computable stand-in for std::exp used by the witnesses: the constant
function 1, which is everywhere positive and multiplicative. -/
def expOne : ℚ → ℚ := fun _ => 1

/-- The network netA after forwarding the input [2]. -/
def netA1 : Network ℚ :=
  { weights := [[[1]]], biases := [[0]], activations := [[1]], z_values := [[2]],
    learning_rate := 1 }

/-- Evaluation of the tiny concrete forward pass used by several witnesses:
z = 1·2 + 0 = 2, softmax with the constant exponential gives [1]. -/
theorem netA_forward_eval :
    forward_propagation expOne netA [2] = .ok (netA1, [1]) := by
  norm_num [forward_propagation, forwardLayers, computeZ, dot_product, dotSum,
    softmax, maxElem, netA, netA1, expOne]

theorem forward_mutates_only_cache_witness :
    forward_propagation expOne netA [2] = .ok (netA1, [1]) ∧
      (netA1.weights = netA.weights ∧ netA1.biases = netA.biases ∧
        netA1.learning_rate = netA.learning_rate) :=
  ⟨netA_forward_eval,
    forward_mutates_only_cache expOne netA netA1 [2] [1] netA_forward_eval⟩

/-- softmax preserves the vector's length. -/
theorem softmax_length (exp : K → K) (v : List K) :
    (softmax exp v).length = v.length := by
  simp [softmax]

/-- A successful z-computation has one entry per weight row. -/
theorem computeZ_length (x : List K) (w : List (List K)) (b z : List K)
    (h : computeZ x w b = .ok z) : z.length = w.length := by
  induction w generalizing b z with
  | nil =>
      simp only [computeZ, Except.ok.injEq] at h
      subst h
      rfl
  | cons row w ih =>
      simp only [computeZ] at h
      split at h
      · exact absurd h (by simp)
      · split at h
        · exact absurd h (by simp)
        · rename_i rest hr
          simp only [Except.ok.injEq] at h
          subst h
          simp only [List.length_cons]
          rw [ih _ _ hr]

/-- The layer loop on no layers: identity output and empty caches. -/
theorem forwardLayers_nil (exp : K → K) (bs : List (List K)) (x : List K) :
    forwardLayers exp [] bs x = .ok ([], [], x) := rfl

/-- The layer loop on exactly one layer: z-computation then softmax. -/
theorem forwardLayers_last (exp : K → K) (w : List (List K))
    (bs : List (List K)) (x : List K) :
    forwardLayers exp [w] bs x =
      match computeZ x w (bs.headD []) with
      | .error e => .error e
      | .ok z => .ok ([z], [softmax exp z], softmax exp z) := by
  rw [forwardLayers]

/-- The layer loop on at least two layers: z-computation, ReLU, recursion. -/
theorem forwardLayers_cons2 (exp : K → K) (w w2 : List (List K))
    (ws2 : List (List (List K))) (bs : List (List K)) (x : List K) :
    forwardLayers exp (w :: w2 :: ws2) bs x =
      match computeZ x w (bs.headD []) with
      | .error e => .error e
      | .ok z =>
          match forwardLayers exp (w2 :: ws2) bs.tail (z.map relu) with
          | .error e => .error e
          | .ok r => .ok (z :: r.1, z.map relu :: r.2.1, r.2.2) := by
  rw [forwardLayers]

/-- Shape of the caches produced by a successful run of the layer loop:
one pre-activation and one activation per layer, each of the layer's row
count. -/
theorem forwardLayers_shapes (exp : K → K) (ws : List (List (List K))) :
    ∀ (bs : List (List K)) (x : List K) (zs as : List (List K)) (out : List K),
      forwardLayers exp ws bs x = .ok (zs, as, out) →
      zs.length = ws.length ∧ as.length = ws.length ∧
        (∀ i, (zs.getD i []).length = (ws.getD i []).length) ∧
        (∀ i, (as.getD i []).length = (ws.getD i []).length) := by
  induction ws with
  | nil =>
      intro bs x zs as out h
      simp only [forwardLayers_nil, Except.ok.injEq, Prod.mk.injEq] at h
      obtain ⟨h1, h2, -⟩ := h
      subst h1
      subst h2
      exact ⟨rfl, rfl, fun i => rfl, fun i => rfl⟩
  | cons w ws ih =>
      intro bs x zs as out h
      cases ws with
      | nil =>
          rw [forwardLayers_last] at h
          split at h
          · exact absurd h (by simp)
          · rename_i z hz
            simp only [Except.ok.injEq, Prod.mk.injEq] at h
            obtain ⟨h1, h2, -⟩ := h
            subst h1
            subst h2
            refine ⟨rfl, rfl, ?_, ?_⟩
            · intro i
              cases i with
              | zero => simpa using computeZ_length x w _ z hz
              | succ n => rfl
            · intro i
              cases i with
              | zero =>
                  simp only [List.getD_cons_zero]
                  rw [softmax_length]
                  exact computeZ_length x w _ z hz
              | succ n => rfl
      | cons w2 ws2 =>
          rw [forwardLayers_cons2] at h
          split at h
          · exact absurd h (by simp)
          · rename_i z hz
            split at h
            · exact absurd h (by simp)
            · rename_i r hr
              obtain ⟨rz, ra, ro⟩ := r
              simp only [Except.ok.injEq, Prod.mk.injEq] at h
              obtain ⟨h1, h2, h3⟩ := h
              subst h1
              subst h2
              subst h3
              obtain ⟨l1, l2, l3, l4⟩ := ih _ _ _ _ _ hr
              refine ⟨by simp [l1], by simp [l2], ?_, ?_⟩
              · intro i
                cases i with
                | zero => simpa using computeZ_length x w _ z hz
                | succ n => simpa using l3 n
              · intro i
                cases i with
                | zero =>
                    simp only [List.getD_cons_zero, List.length_map]
                    exact computeZ_length x w _ z hz
                | succ n => simpa using l4 n

/-- C10. After every successful forward propagation the cache is
well-formed for the sample just forwarded: the cached pre-activation and
activation lists each have one entry per layer, and for every layer i both
cached vectors have the row count of weight matrix i — for any starting
network, hence regardless of cache contents left by earlier calls. -/
theorem forward_cache_wellformed (exp : K → K) (net net1 : Network K)
    (input out : List K)
    (h : forward_propagation exp net input = .ok (net1, out)) :
    net1.z_values.length = net.weights.length ∧
      net1.activations.length = net.weights.length ∧
      (∀ i, (net1.z_values.getD i []).length = (net.weights.getD i []).length) ∧
      (∀ i, (net1.activations.getD i []).length = (net.weights.getD i []).length) := by
  unfold forward_propagation at h
  rcases hf : forwardLayers exp net.weights net.biases input with e | ⟨zs, as, o⟩ <;>
    rw [hf] at h
  · exact absurd h (by simp)
  · simp only [Except.ok.injEq, Prod.mk.injEq] at h
    obtain ⟨h1, -⟩ := h
    subst h1
    simpa using forwardLayers_shapes exp net.weights net.biases input zs as o hf

theorem forward_cache_wellformed_witness :
    forward_propagation expOne netA [2] = .ok (netA1, [1]) ∧
      (netA1.z_values.length = netA.weights.length ∧
        netA1.activations.length = netA.weights.length ∧
        (∀ i, (netA1.z_values.getD i []).length = (netA.weights.getD i []).length) ∧
        (∀ i, (netA1.activations.getD i []).length = (netA.weights.getD i []).length)) :=
  ⟨netA_forward_eval,
    forward_cache_wellformed expOne netA netA1 [2] [1] netA_forward_eval⟩

theorem sum_map_div (l : List K) (s : K) :
    (l.map (fun x => x / s)).sum = l.sum / s := by
  induction l with
  | nil => simp
  | cons x xs ih => simp [ih, add_div]

theorem sum_map_mul_const (l : List K) (f : K → K) (t : K) :
    (l.map (fun x => f x * t)).sum = (l.map f).sum * t := by
  induction l with
  | nil => simp
  | cons x xs ih => simp [ih, add_mul]

theorem foldl_max_add (c : K) (xs : List K) :
    ∀ x, (xs.map (fun a => a + c)).foldl max (x + c) = xs.foldl max x + c := by
  induction xs with
  | nil => intro x; rfl
  | cons y ys ih =>
      intro x
      simp only [List.map_cons, List.foldl_cons]
      rw [max_add_add_right]
      exact ih _

/-- Adding a constant to every entry of a nonempty vector shifts its
maximum element by the same constant. -/
theorem maxElem_map_add (v : List K) (c : K) (hv : v ≠ []) :
    maxElem (v.map (fun x => x + c)) = maxElem v + c := by
  cases v with
  | nil => exact absurd rfl hv
  | cons x xs =>
      simp only [List.map_cons, maxElem]
      exact foldl_max_add c xs x

/-- C6. For every nonempty input vector and every everywhere-positive
exponential, softmax returns a vector of the same length whose entries lie
in [0,1] and sum to exactly 1 (hence within the 1e-6 tolerance); the
maximum subtraction is invisible: softmax of a shifted vector equals
softmax of the vector, and — when the exponential is multiplicative, as
the real std::exp is — the stabilized softmax equals the unshifted
mathematical softmax. -/
theorem softmax_spec (exp : K → K) (v : List K) (hv : v ≠ [])
    (hpos : ∀ x, 0 < exp x) :
    (softmax exp v).length = v.length ∧
      (∀ y ∈ softmax exp v, 0 ≤ y ∧ y ≤ 1) ∧
      (softmax exp v).sum = 1 ∧
      |(softmax exp v).sum - 1| ≤ 1 / 1000000 ∧
      (∀ c, softmax exp (v.map (fun x => x + c)) = softmax exp v) ∧
      ((∀ a b, exp (a + b) = exp a * exp b) →
        softmax exp v = softmaxNoShift exp v) := by
  have hsm : softmax exp v =
      (v.map (fun x => exp (x - maxElem v))).map
        (fun x => x / (v.map (fun x => exp (x - maxElem v))).sum) := rfl
  have he : v.map (fun x => exp (x - maxElem v)) ≠ [] := by
    simpa using hv
  have hepos : ∀ y ∈ v.map (fun x => exp (x - maxElem v)), 0 < y := by
    intro y hy
    obtain ⟨x, -, rfl⟩ := List.mem_map.mp hy
    exact hpos _
  have hs : 0 < (v.map (fun x => exp (x - maxElem v))).sum :=
    List.sum_pos _ hepos he
  have hsum1 : (softmax exp v).sum = 1 := by
    rw [hsm, sum_map_div]
    exact div_self (ne_of_gt hs)
  refine ⟨softmax_length exp v, ?_, hsum1, ?_, ?_, ?_⟩
  · intro y hy
    rw [hsm] at hy
    obtain ⟨x, hxE, rfl⟩ := List.mem_map.mp hy
    refine ⟨div_nonneg (le_of_lt (hepos x hxE)) (le_of_lt hs), ?_⟩
    rw [div_le_one hs]
    exact List.single_le_sum (fun b hb => le_of_lt (hepos b hb)) _ hxE
  · rw [hsum1]
    norm_num
  · intro c
    have hE : (v.map (fun x => x + c)).map
        (fun x => exp (x - maxElem (v.map (fun x => x + c)))) =
        v.map (fun x => exp (x - maxElem v)) := by
      rw [maxElem_map_add v c hv, List.map_map]
      congr 1
      funext x
      simp only [Function.comp_apply]
      congr 1
      ring
    simp only [softmax]
    rw [hE]
  · intro hmul
    have ht : exp (-(maxElem v)) ≠ 0 := ne_of_gt (hpos _)
    have hEt : v.map (fun x => exp (x - maxElem v)) =
        v.map (fun x => exp x * exp (-(maxElem v))) := by
      congr 1
      funext x
      rw [sub_eq_add_neg, hmul]
    rw [hsm, hEt, sum_map_mul_const, List.map_map]
    unfold softmaxNoShift
    rw [List.map_map]
    congr 1
    funext x
    simp only [Function.comp_apply]
    exact mul_div_mul_right _ _ ht

theorem softmax_spec_witness :
    ([0, 1] : List ℚ) ≠ [] ∧ (∀ x : ℚ, 0 < expOne x) ∧
      ((softmax expOne [0, 1]).length = ([0, 1] : List ℚ).length ∧
        (∀ y ∈ softmax expOne ([0, 1] : List ℚ), 0 ≤ y ∧ y ≤ 1) ∧
        (softmax expOne ([0, 1] : List ℚ)).sum = 1 ∧
        |(softmax expOne ([0, 1] : List ℚ)).sum - 1| ≤ 1 / 1000000 ∧
        (∀ c, softmax expOne (([0, 1] : List ℚ).map (fun x => x + c)) =
          softmax expOne [0, 1]) ∧
        ((∀ a b : ℚ, expOne (a + b) = expOne a * expOne b) →
          softmax expOne ([0, 1] : List ℚ) = softmaxNoShift expOne [0, 1])) :=
  ⟨by simp, fun x => one_pos,
    softmax_spec expOne [0, 1] (by simp) (fun x => one_pos)⟩

theorem mkMatrix_length (g : ℕ → K) (c0 rows cols : ℕ) :
    (mkMatrix g c0 rows cols).length = rows := by
  simp [mkMatrix]

theorem mkMatrix_shape (g : ℕ → K) (c0 rows cols : ℕ) :
    (mkMatrix g c0 rows cols).map List.length = List.replicate rows cols := by
  simp only [mkMatrix, List.map_map]
  refine List.eq_replicate_iff.mpr ⟨by simp, ?_⟩
  intro x hx
  simp only [List.mem_map, Function.comp_apply] at hx
  obtain ⟨r, -, rfl⟩ := hx
  simp

/-- Shapes produced by the constructor loop: for consecutive architecture
entries (a, b) a weight matrix of b rows of length a and a bias of b
zeros. -/
theorem buildLayers_shapes (g : ℕ → K) : ∀ (c0 : ℕ) (arch : List ℕ),
    (buildLayers g c0 arch).1.map (fun w => w.map List.length) =
        (arch.zip arch.tail).map (fun p => List.replicate p.2 p.1) ∧
      (buildLayers g c0 arch).1.map List.length = arch.tail ∧
      (buildLayers g c0 arch).2.map List.length = arch.tail
  | _, [] => by simp [buildLayers]
  | _, [a] => by simp [buildLayers]
  | c0, a :: b :: rest => by
      have ih := buildLayers_shapes g (c0 + b * a) (b :: rest)
      simp only [buildLayers, List.map_cons, List.zip_cons_cons, List.tail_cons]
      exact ⟨by rw [mkMatrix_shape, ih.1]; rfl, by rw [mkMatrix_length, ih.2.1]; rfl,
        by rw [List.length_replicate, ih.2.2]; rfl⟩

/-- Every successfully constructed network has the architecture's shapes:
layer ℓ's weight matrix has arch[ℓ+1] rows of length arch[ℓ], and its bias
has arch[ℓ+1] entries. -/
theorem construct_ok_shapes (arch : List ℤ) (lr : K) (g : ℕ → K) (net : Network K)
    (h : construct arch lr g = .ok net) :
    net.weights.map (fun w => w.map List.length) =
        ((arch.map Int.toNat).zip (arch.map Int.toNat).tail).map
          (fun p => List.replicate p.2 p.1) ∧
      net.weights.map List.length = (arch.map Int.toNat).tail ∧
      net.biases.map List.length = (arch.map Int.toNat).tail := by
  unfold construct at h
  split at h
  · rename_i hlt
    simp only [Except.ok.injEq] at h
    subst h
    cases arch with
    | nil => simp
    | cons a rest =>
        cases rest with
        | nil => simp
        | cons b r2 =>
            simp only [List.length_cons] at hlt
            omega
  · split at h
    · exact absurd h (by simp)
    · simp only [Except.ok.injEq] at h
      subst h
      simpa using buildLayers_shapes g 0 (arch.map Int.toNat)

theorem updateRow_length (lr di : K) : ∀ (row prev : List K),
    (updateRow lr di row prev).length = row.length
  | [], _ => rfl
  | x :: xs, prev => by
      simp [updateRow, updateRow_length lr di xs prev.tail]

theorem updateMatrix_profile (lr : K) : ∀ (w : List (List K)) (delta prev : List K),
    (updateMatrix lr w delta prev).map List.length = w.map List.length
  | [], _, _ => rfl
  | row :: w, delta, prev => by
      simp [updateMatrix, updateRow_length, updateMatrix_profile lr w delta.tail prev]

theorem updateBias_length (lr : K) : ∀ (n : ℕ) (b delta : List K),
    (updateBias lr n b delta).length = b.length
  | 0, _, _ => rfl
  | _ + 1, [], _ => rfl
  | n + 1, x :: bs, delta => by
      simp [updateBias, updateBias_length lr n bs delta.tail]

/-- Writing back the (possibly defaulted) value read at an index leaves a
list unchanged. -/
theorem set_getD_self {α : Type} : ∀ (l : List α) (i : ℕ) (d : α),
    l.set i (l.getD i d) = l
  | [], _, _ => rfl
  | _ :: _, 0, _ => rfl
  | x :: xs, i + 1, d => by
      simp only [List.set, List.getD_cons_succ]
      rw [set_getD_self xs i d]

theorem getD_map {α β : Type} (f : α → β) : ∀ (l : List α) (i : ℕ) (d : α),
    (l.map f).getD i (f d) = f (l.getD i d)
  | [], _, _ => rfl
  | _ :: _, 0, _ => rfl
  | x :: xs, i + 1, d => by
      simp only [List.map_cons, List.getD_cons_succ]
      exact getD_map f xs i d

/-- The downward layer loop of the backward pass never changes the shape
profile of the weights or the biases. -/
theorem backwardLoop_profile (lr : K) (input : List K) (acts zs : List (List K)) :
    ∀ (n : ℕ) (ws : List (List (List K))) (bs : List (List K)) (delta : List K),
      (backwardLoop lr input acts zs n ws bs delta).1.map (fun w => w.map List.length) =
          ws.map (fun w => w.map List.length) ∧
        (backwardLoop lr input acts zs n ws bs delta).2.map List.length =
          bs.map List.length := by
  intro n
  induction n with
  | zero => exact fun ws bs delta => ⟨rfl, rfl⟩
  | succ n ih =>
      intro ws bs delta
      rw [backwardLoop]
      obtain ⟨ih1, ih2⟩ := ih (ws.set n (updateMatrix lr (ws.getD n []) delta
          (if n = 0 then input else acts.getD (n - 1) [])))
        (bs.set n (updateBias lr (ws.getD n []).length (bs.getD n []) delta))
        (if n = 0 then delta
          else propagateDelta (updateMatrix lr (ws.getD n []) delta
            (if n = 0 then input else acts.getD (n - 1) [])) delta (zs.getD (n - 1) []))
      rw [ih1, ih2]
      constructor
      · rw [List.map_set, updateMatrix_profile]
        have hd : ((ws.getD n []).map List.length) =
            (ws.map (fun w => w.map List.length)).getD n ([].map List.length) :=
          (getD_map (fun w => w.map List.length) ws n []).symm
        simp only [List.map_nil] at hd
        rw [hd, set_getD_self]
      · rw [List.map_set, updateBias_length]
        have hd : (bs.getD n []).length = (bs.map List.length).getD n [].length :=
          (getD_map List.length bs n []).symm
        simp only [List.length_nil] at hd
        rw [hd, set_getD_self]

/-- The backward pass preserves the shape profile of every network. -/
theorem backward_shape_preserved (net : Network K) (input target : List K) :
    (backward_propagation net input target).weights.map (fun w => w.map List.length) =
        net.weights.map (fun w => w.map List.length) ∧
      (backward_propagation net input target).biases.map List.length =
        net.biases.map List.length := by
  unfold backward_propagation
  exact backwardLoop_profile net.learning_rate input net.activations net.z_values
    net.weights.length net.weights net.biases
    (vecSubPad (net.activations.getLastD []) target)

/-- C7. Construction establishes the shape invariant (layer ℓ has arch[ℓ+1]
weight rows of length arch[ℓ] and arch[ℓ+1] bias entries), forward
propagation leaves the parameters (hence their shapes) untouched, the
backward pass preserves the shape profile, and for architecture [2,3,2] the
weight matrices have shapes 3×2 and 2×3 with bias lengths 3 and 2. -/
theorem shape_invariant (arch : List ℤ) (lr : K) (g : ℕ → K) (net : Network K)
    (h : construct arch lr g = .ok net) :
    (net.weights.map (fun w => w.map List.length) =
        ((arch.map Int.toNat).zip (arch.map Int.toNat).tail).map
          (fun p => List.replicate p.2 p.1) ∧
      net.weights.map List.length = (arch.map Int.toNat).tail ∧
      net.biases.map List.length = (arch.map Int.toNat).tail) ∧
    (∀ (exp : K → K) (net1 net2 : Network K) (input out : List K),
      forward_propagation exp net1 input = .ok (net2, out) →
      net2.weights = net1.weights ∧ net2.biases = net1.biases) ∧
    (∀ (net1 : Network K) (input target : List K),
      (backward_propagation net1 input target).weights.map (fun w => w.map List.length) =
          net1.weights.map (fun w => w.map List.length) ∧
        (backward_propagation net1 input target).biases.map List.length =
          net1.biases.map List.length) ∧
    (∀ net2 : Network K, construct ([2, 3, 2] : List ℤ) lr g = .ok net2 →
      net2.weights.map (fun w => w.map List.length) =
          [List.replicate 3 2, List.replicate 2 3] ∧
        net2.biases.map List.length = [3, 2]) := by
  refine ⟨construct_ok_shapes arch lr g net h, ?_, ?_, ?_⟩
  · intro exp net1 net2 input out hf
    obtain ⟨h1, h2, -⟩ := forward_frame exp net1 net2 input out hf
    exact ⟨h1, h2⟩
  · exact fun net1 input target => backward_shape_preserved net1 input target
  · intro net2 h2
    obtain ⟨a1, -, a3⟩ := construct_ok_shapes ([2, 3, 2] : List ℤ) lr g net2 h2
    exact ⟨by simpa using a1, by simpa using a3⟩

/-- The network produced by construct [2,3,2] with the zero random stream. -/
def netB : Network ℚ :=
  { weights := [[[0, 0], [0, 0], [0, 0]], [[0, 0, 0], [0, 0, 0]]],
    biases := [[0, 0, 0], [0, 0]], activations := [], z_values := [],
    learning_rate := 1 }

theorem shape_invariant_witness :
    construct ([2, 3, 2] : List ℤ) (1 : ℚ) (fun _ => 0) = .ok netB ∧
      ((netB.weights.map (fun w => w.map List.length) =
          ((([2, 3, 2] : List ℤ).map Int.toNat).zip
            (([2, 3, 2] : List ℤ).map Int.toNat).tail).map
              (fun p => List.replicate p.2 p.1) ∧
        netB.weights.map List.length = (([2, 3, 2] : List ℤ).map Int.toNat).tail ∧
        netB.biases.map List.length = (([2, 3, 2] : List ℤ).map Int.toNat).tail) ∧
      (∀ (exp : ℚ → ℚ) (net1 net2 : Network ℚ) (input out : List ℚ),
        forward_propagation exp net1 input = .ok (net2, out) →
        net2.weights = net1.weights ∧ net2.biases = net1.biases) ∧
      (∀ (net1 : Network ℚ) (input target : List ℚ),
        (backward_propagation net1 input target).weights.map (fun w => w.map List.length) =
            net1.weights.map (fun w => w.map List.length) ∧
          (backward_propagation net1 input target).biases.map List.length =
            net1.biases.map List.length) ∧
      (∀ net2 : Network ℚ, construct ([2, 3, 2] : List ℤ) 1 (fun _ => 0) = .ok net2 →
        net2.weights.map (fun w => w.map List.length) =
            [List.replicate 3 2, List.replicate 2 3] ∧
          net2.biases.map List.length = [3, 2])) :=
  ⟨by rfl, shape_invariant [2, 3, 2] 1 (fun _ => 0) netB (by rfl)⟩

/-- Behaviour of the max_element scan: either no element beats the carried
value (the carried index is returned), or the result points cur + k at the
first strictly-greatest element of the remaining list. -/
theorem argmaxAux_spec (xs : List K) : ∀ (cur best : ℕ) (bv : K),
    (argmaxAux cur best bv xs = best ∧ ∀ j < xs.length, xs.getD j 0 ≤ bv) ∨
    (∃ k, k < xs.length ∧ argmaxAux cur best bv xs = cur + k ∧
      bv < xs.getD k 0 ∧ (∀ j < k, xs.getD j 0 < xs.getD k 0) ∧
      (∀ j < xs.length, xs.getD j 0 ≤ xs.getD k 0)) := by
  induction xs with
  | nil =>
      intro cur best bv
      left
      exact ⟨rfl, fun j hj => absurd hj (Nat.not_lt_zero j)⟩
  | cons x xs ih =>
      intro cur best bv
      by_cases hx : bv < x
      · rw [show argmaxAux cur best bv (x :: xs) =
            argmaxAux (cur + 1) cur x xs from by simp [argmaxAux, hx]]
        rcases ih (cur + 1) cur x with ⟨hr, hall⟩ | ⟨k, hk, hr, hbk, hstrict, hall⟩
        · right
          refine ⟨0, by simp, by simpa using hr, by simpa using hx, ?_, ?_⟩
          · intro j hj
            exact absurd hj (Nat.not_lt_zero j)
          · intro j hj
            cases j with
            | zero => simp
            | succ n =>
                simp only [List.getD_cons_succ, List.getD_cons_zero]
                exact hall n (by simpa using hj)
        · right
          refine ⟨k + 1, by simpa using hk, by rw [hr]; omega, ?_, ?_, ?_⟩
          · simp only [List.getD_cons_succ]
            exact lt_trans hx hbk
          · intro j hj
            cases j with
            | zero =>
                simp only [List.getD_cons_zero, List.getD_cons_succ]
                exact hbk
            | succ n =>
                simp only [List.getD_cons_succ]
                exact hstrict n (by omega)
          · intro j hj
            cases j with
            | zero =>
                simp only [List.getD_cons_zero, List.getD_cons_succ]
                exact le_of_lt hbk
            | succ n =>
                simp only [List.getD_cons_succ]
                exact hall n (by simpa using hj)
      · rw [show argmaxAux cur best bv (x :: xs) =
            argmaxAux (cur + 1) best bv xs from by simp [argmaxAux, hx]]
        rcases ih (cur + 1) best bv with ⟨hr, hall⟩ | ⟨k, hk, hr, hbk, hstrict, hall⟩
        · left
          refine ⟨hr, ?_⟩
          intro j hj
          cases j with
          | zero => simpa using le_of_not_lt hx
          | succ n =>
              simp only [List.getD_cons_succ]
              exact hall n (by simpa using hj)
        · right
          refine ⟨k + 1, by simpa using hk, by rw [hr]; omega, ?_, ?_, ?_⟩
          · simp only [List.getD_cons_succ]
            exact hbk
          · intro j hj
            cases j with
            | zero =>
                simp only [List.getD_cons_zero, List.getD_cons_succ]
                exact lt_of_le_of_lt (le_of_not_lt hx) hbk
            | succ n =>
                simp only [List.getD_cons_succ]
                exact hstrict n (by omega)
          · intro j hj
            cases j with
            | zero =>
                simp only [List.getD_cons_zero, List.getD_cons_succ]
                exact le_of_lt (lt_of_le_of_lt (le_of_not_lt hx) hbk)
            | succ n =>
                simp only [List.getD_cons_succ]
                exact hall n (by simpa using hj)

/-- The arg-max index of a nonempty vector: in range, attains the maximum,
and every strictly earlier entry is strictly smaller (first-occurrence tie
break). -/
theorem argmaxIdx_spec (v : List K) (hv : v ≠ []) :
    argmaxIdx v < v.length ∧
      (∀ j < v.length, v.getD j 0 ≤ v.getD (argmaxIdx v) 0) ∧
      (∀ j < argmaxIdx v, v.getD j 0 < v.getD (argmaxIdx v) 0) := by
  cases v with
  | nil => exact absurd rfl hv
  | cons x xs =>
      rw [show argmaxIdx (x :: xs) = argmaxAux 1 0 x xs from rfl]
      rcases argmaxAux_spec xs 1 0 x with ⟨hr, hall⟩ | ⟨k, hk, hr, hbk, hstrict, hall⟩
      · rw [hr]
        refine ⟨by simp, ?_, ?_⟩
        · intro j hj
          cases j with
          | zero => simp
          | succ n =>
              simp only [List.getD_cons_succ, List.getD_cons_zero]
              exact hall n (by simpa using hj)
        · intro j hj
          exact absurd hj (Nat.not_lt_zero j)
      · rw [hr]
        have h1k : 1 + k = k + 1 := by omega
        rw [h1k]
        refine ⟨by simpa using hk, ?_, ?_⟩
        · intro j hj
          cases j with
          | zero =>
              simp only [List.getD_cons_zero, List.getD_cons_succ]
              exact le_of_lt hbk
          | succ n =>
              simp only [List.getD_cons_succ]
              exact hall n (by simpa using hj)
        · intro j hj
          cases j with
          | zero =>
              simp only [List.getD_cons_zero, List.getD_cons_succ]
              exact hbk
          | succ n =>
              simp only [List.getD_cons_succ]
              exact hstrict n (by omega)

/-- The output of a successful layer loop over at least one layer has the
row count of the last weight matrix. -/
theorem forwardLayers_out_length (exp : K → K) : ∀ (ws : List (List (List K))),
    ws ≠ [] → ∀ (bs : List (List K)) (x : List K) (zs as : List (List K)) (out : List K),
      forwardLayers exp ws bs x = .ok (zs, as, out) →
      out.length = (ws.getLastD []).length
  | [], hne => absurd rfl hne
  | [w], _ => by
      intro bs x zs as out h
      rw [forwardLayers_last] at h
      split at h
      · exact absurd h (by simp)
      · rename_i z hz
        simp only [Except.ok.injEq, Prod.mk.injEq] at h
        obtain ⟨-, -, h3⟩ := h
        subst h3
        rw [softmax_length]
        simpa using computeZ_length x w _ z hz
  | w :: w2 :: ws2, _ => by
      intro bs x zs as out h
      rw [forwardLayers_cons2] at h
      split at h
      · exact absurd h (by simp)
      · rename_i z hz
        split at h
        · exact absurd h (by simp)
        · rename_i r hr
          obtain ⟨rz, ra, ro⟩ := r
          simp only [Except.ok.injEq, Prod.mk.injEq] at h
          obtain ⟨-, -, h3⟩ := h
          subst h3
          have := forwardLayers_out_length exp (w2 :: ws2) (by simp) bs.tail
            (z.map relu) rz ra ro hr
          simpa using this

/-- C8. predict runs forward propagation and returns the arg-max index of
the output distribution, ties broken by first occurrence; whenever the last
layer has at least one row (output_size > 0) the returned value lies in
[0, output_size). -/
theorem predict_spec (exp : K → K) (net net1 : Network K) (input : List K) (k : ℕ)
    (hw : net.weights ≠ [])
    (hrows : 0 < (net.weights.getLastD []).length)
    (h : predict exp net input = .ok (net1, k)) :
    k < (net.weights.getLastD []).length ∧
      ∃ out : List K,
        forward_propagation exp net input = .ok (net1, out) ∧
        k = argmaxIdx out ∧
        out.length = (net.weights.getLastD []).length ∧
        (∀ j < out.length, out.getD j 0 ≤ out.getD k 0) ∧
        (∀ j < k, out.getD j 0 < out.getD k 0) := by
  unfold predict at h
  rcases hf : forward_propagation exp net input with e | ⟨net2, out⟩ <;> rw [hf] at h
  · exact absurd h (by simp)
  · simp only [Except.ok.injEq, Prod.mk.injEq] at h
    obtain ⟨h1, h2⟩ := h
    subst h1
    subst h2
    have hlen : out.length = (net.weights.getLastD []).length := by
      unfold forward_propagation at hf
      rcases hfl : forwardLayers exp net.weights net.biases input with e | ⟨zs, as, o⟩ <;>
        rw [hfl] at hf
      · exact absurd hf (by simp)
      · simp only [Except.ok.injEq, Prod.mk.injEq] at hf
        obtain ⟨-, h3⟩ := hf
        rw [← h3]
        exact forwardLayers_out_length exp net.weights hw net.biases input zs as o hfl
    have hne : out ≠ [] := by
      intro hnil
      rw [hnil] at hlen
      simp only [List.length_nil] at hlen
      omega
    obtain ⟨b1, b2, b3⟩ := argmaxIdx_spec out hne
    exact ⟨hlen ▸ b1, out, rfl, rfl, hlen, b2, b3⟩

theorem predict_spec_witness :
    netA.weights ≠ [] ∧ 0 < (netA.weights.getLastD []).length ∧
      predict expOne netA [2] = .ok (netA1, 0) ∧
      (0 < (netA.weights.getLastD []).length ∧
        ∃ out : List ℚ,
          forward_propagation expOne netA [2] = .ok (netA1, out) ∧
          0 = argmaxIdx out ∧
          out.length = (netA.weights.getLastD []).length ∧
          (∀ j < out.length, out.getD j 0 ≤ out.getD 0 0) ∧
          (∀ j < 0, out.getD j 0 < out.getD 0 0)) :=
  ⟨by simp [netA], by simp [netA], by rw [predict, netA_forward_eval]; rfl,
    predict_spec expOne netA netA1 [2] 0 (by simp [netA]) (by simp [netA])
      (by rw [predict, netA_forward_eval]; rfl)⟩

theorem specForward_nil (exp : K → K) (x : List K) :
    specForward exp [] x = ([], [], x) := rfl

theorem specForward_last (exp : K → K) (w : List (List K)) (b : List K) (x : List K) :
    specForward exp [(w, b)] x =
      ([List.zipWith (fun u v => u + v) (matVecSpec w x) b],
        [softmax exp (List.zipWith (fun u v => u + v) (matVecSpec w x) b)],
        softmax exp (List.zipWith (fun u v => u + v) (matVecSpec w x) b)) := by
  rw [specForward]

theorem specForward_cons2 (exp : K → K) (w w2 : List (List K)) (b b2 : List K)
    (rest : List (List (List K) × List K)) (x : List K) :
    specForward exp ((w, b) :: (w2, b2) :: rest) x =
      ((List.zipWith (fun u v => u + v) (matVecSpec w x) b) ::
          (specForward exp ((w2, b2) :: rest)
            ((List.zipWith (fun u v => u + v) (matVecSpec w x) b).map relu)).1,
        (List.zipWith (fun u v => u + v) (matVecSpec w x) b).map relu ::
          (specForward exp ((w2, b2) :: rest)
            ((List.zipWith (fun u v => u + v) (matVecSpec w x) b).map relu)).2.1,
        (specForward exp ((w2, b2) :: rest)
          ((List.zipWith (fun u v => u + v) (matVecSpec w x) b).map relu)).2.2) := by
  rw [specForward]

/-- Under matching dimensions the z-computation loop succeeds and computes
exactly W·x + b. -/
theorem computeZ_ok_of_dims (x : List K) : ∀ (w : List (List K)) (b : List K),
    (∀ row ∈ w, row.length = x.length) → b.length = w.length →
    computeZ x w b = .ok (List.zipWith (fun u v => u + v) (matVecSpec w x) b)
  | [], b, _, _ => by simp [computeZ, matVecSpec]
  | row :: w, b, hrow, hb => by
      cases b with
      | nil => simp at hb
      | cons y bs =>
          have hd : dot_product row x = .ok (dotSum row x) := by
            unfold dot_product
            rw [if_pos (hrow row (by simp))]
          have hrec := computeZ_ok_of_dims x w bs
            (fun r hr => hrow r (by simp [hr])) (by simpa using hb)
          rw [show computeZ x (row :: w) (y :: bs) =
              match dot_product row x with
              | .error e => .error e
              | .ok d =>
                  match computeZ x w (y :: bs).tail with
                  | .error e => .error e
                  | .ok rest => .ok ((d + (y :: bs).headD 0) :: rest) from by
            rw [computeZ]]
          rw [hd]
          simp only [List.tail_cons, List.headD_cons]
          rw [hrec]
          simp [matVecSpec]

/-- Refinement of the layer loop by the specification-side forward pass:
with consistent dimensions the loop succeeds and computes the caches and
output of the per-layer recursion of spec section 4.2. -/
theorem forwardLayers_spec (exp : K → K) : ∀ (ws : List (List (List K)))
    (bs : List (List K)) (x : List K),
    dimsOk ws bs x.length = true →
    forwardLayers exp ws bs x = .ok (specForward exp (ws.zip bs) x)
  | [], bs, x, hdims => by
      cases bs with
      | nil => rfl
      | cons b bs => simp [dimsOk] at hdims
  | w :: ws, bs, x, hdims => by
      cases bs with
      | nil => simp [dimsOk] at hdims
      | cons b bs =>
          simp only [dimsOk, Bool.and_eq_true, List.all_eq_true, beq_iff_eq] at hdims
          obtain ⟨⟨hrow, hb⟩, hrest⟩ := hdims
          have hz := computeZ_ok_of_dims x w b hrow hb
          have hzlen : (List.zipWith (fun u v => u + v) (matVecSpec w x) b).length =
              w.length := by
            simp [matVecSpec, hb]
          cases ws with
          | nil =>
              cases bs with
              | nil =>
                  rw [forwardLayers_last]
                  simp only [List.headD_cons]
                  rw [hz]
                  rw [show ([w].zip [b] : List (List (List K) × List K)) = [(w, b)]
                    from rfl]
                  rw [specForward_last]
              | cons b2 bs2 => simp [dimsOk] at hrest
          | cons w2 ws2 =>
              cases bs with
              | nil => simp [dimsOk] at hrest
              | cons b2 bs2 =>
                  rw [forwardLayers_cons2]
                  simp only [List.headD_cons]
                  rw [hz]
                  have hrec := forwardLayers_spec exp (w2 :: ws2) (b2 :: bs2)
                    ((List.zipWith (fun u v => u + v) (matVecSpec w x) b).map relu)
                    (by rw [List.length_map, hzlen]; exact hrest)
                  simp only [List.tail_cons]
                  rw [hrec]
                  simp only [List.zip_cons_cons]
                  rw [specForward_cons2]

/-- C4. For every input whose length matches the network's dimensions,
forward propagation succeeds; for each layer in order it computes the
pre-activation z = W·x + b by per-row dot products plus the matching bias
entry (x being the previous layer's activation, or the raw input for layer
0), applies ReLU elementwise on every layer but the last and softmax on the
last, records every z and every activation in the cache, and returns the
final layer's activation — i.e. it returns exactly the specification-side
per-layer recursion specForward. -/
theorem forward_spec (exp : K → K) (net : Network K) (input : List K)
    (hdims : dimsOk net.weights net.biases input.length = true) :
    forward_propagation exp net input =
      .ok ({ net with
              z_values := (specForward exp (net.weights.zip net.biases) input).1,
              activations := (specForward exp (net.weights.zip net.biases) input).2.1 },
            (specForward exp (net.weights.zip net.biases) input).2.2) := by
  unfold forward_propagation
  rw [forwardLayers_spec exp net.weights net.biases input hdims]

theorem forward_spec_witness :
    dimsOk netA.weights netA.biases ([2] : List ℚ).length = true ∧
      forward_propagation expOne netA [2] =
        .ok ({ netA with
                z_values := (specForward expOne (netA.weights.zip netA.biases) [2]).1,
                activations :=
                  (specForward expOne (netA.weights.zip netA.biases) [2]).2.1 },
              (specForward expOne (netA.weights.zip netA.biases) [2]).2.2) :=
  ⟨by decide, forward_spec expOne netA [2] (by decide)⟩

theorem trainSamples_cons (exp log : K → K) (inp : List K) (inps labels : List (List K))
    (net : Network K) (acc : K) :
    trainSamples exp log (inp :: inps) labels net acc =
      match forward_propagation exp net inp with
      | .error e => .error e
      | .ok r =>
          trainSamples exp log inps labels.tail
            (backward_propagation r.1 inp (labels.headD []))
            (acc - sampleLoss log (labels.headD []) r.2) := by
  rw [trainSamples]

/-- The sample loop reads only the first inputs.length labels: extra labels
are silently ignored. -/
theorem trainSamples_truncate (exp log : K → K) :
    ∀ (inputs labels : List (List K)) (net : Network K) (acc : K),
      inputs.length ≤ labels.length →
      trainSamples exp log inputs labels net acc =
        trainSamples exp log inputs (labels.take inputs.length) net acc
  | [], _, _, _, _ => rfl
  | inp :: inps, labels, net, acc, h => by
      cases labels with
      | nil => simp at h
      | cons l ls =>
          simp only [List.length_cons, List.take_succ_cons]
          rw [trainSamples_cons, trainSamples_cons]
          rcases hf : forward_propagation exp net inp with e | r
          · rfl
          · simp only [List.headD_cons, List.tail_cons]
            exact trainSamples_truncate exp log inps ls
              (backward_propagation r.1 inp l) (acc - sampleLoss log l r.2)
              (by simpa using h)

theorem train_succ (exp log : K → K) (inputs labels : List (List K)) (e : ℕ)
    (net : Network K) :
    train exp log inputs labels (e + 1) net =
      match trainSamples exp log inputs labels net 0 with
      | .error err => .error err
      | .ok r =>
          match train exp log inputs labels e r.1 with
          | .error err => .error err
          | .ok rest => .ok (rest.1, (r.2 / (inputs.length : K)) :: rest.2) := by
  rw [train]

/-- C2 amended (the truncation half): with labels at least as long as inputs,
train is exactly train on the truncated labels. -/
theorem train_truncate (exp log : K → K) (inputs labels : List (List K))
    (h : inputs.length ≤ labels.length) :
    ∀ (epochs : ℕ) (net : Network K),
      train exp log inputs labels epochs net =
        train exp log inputs (labels.take inputs.length) epochs net := by
  intro epochs
  induction epochs with
  | zero => intro net; rfl
  | succ e ih =>
      intro net
      rw [train_succ, train_succ,
        ← trainSamples_truncate exp log inputs labels net 0 h]
      rcases hts : trainSamples exp log inputs labels net 0 with err | r
      · rfl
      · simp only [ih]

theorem train_truncate_witness :
    ([[2]] : List (List ℚ)).length ≤ ([[1], [0]] : List (List ℚ)).length ∧
      train expOne expOne [[2]] [[1], [0]] 1 netA =
        train expOne expOne [[2]] (([[1], [0]] : List (List ℚ)).take 1) 1 netA :=
  ⟨by decide, train_truncate expOne expOne [[2]] [[1], [0]] (by decide) 1 netA⟩

/-- C2 counterexample: a call to train with inputs of length 1 and labels
of length 2 (mismatched lengths) raises no error at all — it returns
successfully, silently ignoring the extra label. -/
theorem train_mismatched_lengths_ok :
    (train expOne expOne [[2]] [[1], [0]] 1 netA).isOk = true := rfl

/-- A successful predict keeps the parameters and returns the value of the
pure predictValue function of those parameters. -/
theorem predict_params (exp : K → K) (net : Network K) (inp : List K)
    (r : Network K × ℕ) (h : predict exp net inp = .ok r) :
    r.1.weights = net.weights ∧ r.1.biases = net.biases ∧
      predictValue exp net.weights net.biases inp = .ok r.2 := by
  unfold predict at h
  rcases hf : forward_propagation exp net inp with e | ⟨net2, out⟩ <;> rw [hf] at h
  · exact absurd h (by simp)
  · simp only [Except.ok.injEq] at h
    subst h
    obtain ⟨w1, b1, -⟩ := forward_frame exp net net2 inp out hf
    refine ⟨w1, b1, ?_⟩
    unfold forward_propagation at hf
    unfold predictValue
    rcases hfl : forwardLayers exp net.weights net.biases inp with e | ⟨zs, as, o⟩
    · rw [hfl] at hf
      exact absurd hf (by simp)
    · rw [hfl] at hf
      simp only [Except.ok.injEq, Prod.mk.injEq] at hf
      obtain ⟨-, h3⟩ := hf
      rw [h3]

theorem evalLoop_cons (exp : K → K) (inp : List K) (inps : List (List K))
    (labels : List ℤ) (net : Network K) (c : ℕ) :
    evalLoop exp (inp :: inps) labels net c =
      match predict exp net inp with
      | .error e => .error e
      | .ok r =>
          evalLoop exp inps labels.tail r.1
            (if (r.2 : ℤ) = labels.headD 0 then c + 1 else c) := by
  rw [evalLoop]

/-- The loop of evaluate: on success the parameters are unchanged and the
final tally is the starting tally plus the number of correct predictions. -/
theorem evalLoop_spec (exp : K → K) : ∀ (inputs : List (List K)) (labels : List ℤ)
    (net net1 : Network K) (c c1 : ℕ),
    evalLoop exp inputs labels net c = .ok (net1, c1) →
    net1.weights = net.weights ∧ net1.biases = net.biases ∧
      c1 = c + countCorrect exp net.weights net.biases inputs labels
  | [], labels, net, net1, c, c1, h => by
      simp only [evalLoop, Except.ok.injEq, Prod.mk.injEq] at h
      obtain ⟨h1, h2⟩ := h
      subst h1
      subst h2
      simp [countCorrect]
  | inp :: inps, labels, net, net1, c, c1, h => by
      rw [evalLoop_cons] at h
      rcases hp : predict exp net inp with e | r <;> rw [hp] at h
      · exact absurd h (by simp)
      · obtain ⟨w1, b1, hv⟩ := predict_params exp net inp r hp
        obtain ⟨iw, ib, ic⟩ := evalLoop_spec exp inps labels.tail r.1 net1 _ c1 h
        rw [w1] at iw
        rw [b1] at ib
        refine ⟨iw, ib, ?_⟩
        rw [show countCorrect exp net.weights net.biases (inp :: inps) labels =
            (match predictValue exp net.weights net.biases inp with
              | .ok p => if (p : ℤ) = labels.headD 0 then 1 else 0
              | .error _ => 0) + countCorrect exp net.weights net.biases inps labels.tail
          from by rw [countCorrect]]
        rw [w1, b1] at ic
        simp only [hv]
        rw [ic]
        by_cases hc : (r.2 : ℤ) = labels.headD 0
        · rw [if_pos hc, if_pos hc]
          omega
        · rw [if_neg hc, if_neg hc]
          omega

/-- C3 counterexample: evaluate on an empty input sequence does not fail
with a defined error — it returns successfully (in C++ the returned value
is 0.0/0 = NaN), refuting the claim that the empty case is a defined
error. -/
theorem evaluate_empty_ok :
    (evaluate expOne netA [] []).isOk = true := rfl

/-- C3 amended: whenever evaluate succeeds on a nonempty input sequence it
returns 100 * correct / total, where correct counts the indices whose
predicted class equals the integer label and total is the number of inputs;
in particular 100 when every prediction matches and 0 when none does.  (On
an empty input sequence the C++ code divides 0.0 by 0 and returns NaN
instead of failing.) -/
theorem evaluate_spec (exp : K → K) (net net1 : Network K)
    (inputs : List (List K)) (labels : List ℤ) (acc : K)
    (h : evaluate exp net inputs labels = .ok (net1, acc))
    (hne : inputs ≠ []) :
    acc = 100 * (countCorrect exp net.weights net.biases inputs labels : K) /
        (inputs.length : K) ∧
      (countCorrect exp net.weights net.biases inputs labels = inputs.length →
        acc = 100) ∧
      (countCorrect exp net.weights net.biases inputs labels = 0 → acc = 0) := by
  have hlen : (inputs.length : K) ≠ 0 := by
    have h0 : inputs.length ≠ 0 := fun h0 => hne (List.length_eq_zero.mp h0)
    exact_mod_cast h0
  unfold evaluate at h
  rcases hl : evalLoop exp inputs labels net 0 with e | ⟨net2, correct⟩ <;> rw [hl] at h
  · exact absurd h (by simp)
  · simp only [Except.ok.injEq, Prod.mk.injEq] at h
    obtain ⟨-, h2⟩ := h
    obtain ⟨-, -, hc⟩ := evalLoop_spec exp inputs labels net net2 0 correct hl
    simp only [Nat.zero_add] at hc
    subst hc
    refine ⟨?_, ?_, ?_⟩
    · rw [← h2]
      ring
    · intro hall
      rw [← h2, hall]
      field_simp
    · intro hnone
      rw [← h2, hnone]
      simp

/-- Evaluation of the tiny concrete evaluate run used by the witness:
one sample, predicted class 0, label 0, so accuracy 1/1*100 = 100. -/
theorem netA_evaluate_eval :
    evaluate expOne netA [[2]] [0] = .ok (netA1, 100) := by
  have hp : predict expOne netA [2] = .ok (netA1, 0) := by
    rw [predict, netA_forward_eval]
    rfl
  rw [evaluate, evalLoop_cons, hp]
  norm_num [evalLoop]

theorem evaluate_spec_witness :
    evaluate expOne netA [[2]] [0] = .ok (netA1, 100) ∧
      ([[2]] : List (List ℚ)) ≠ [] ∧
      ((100 : ℚ) = 100 * (countCorrect expOne netA.weights netA.biases [[2]] [0] : ℚ) /
          (([[2]] : List (List ℚ)).length : ℚ) ∧
        (countCorrect expOne netA.weights netA.biases [[2]] [0] =
            ([[2]] : List (List ℚ)).length → (100 : ℚ) = 100) ∧
        (countCorrect expOne netA.weights netA.biases [[2]] [0] = 0 →
          (100 : ℚ) = 0)) :=
  ⟨netA_evaluate_eval, by simp,
    evaluate_spec expOne netA netA1 [[2]] [0] 100 netA_evaluate_eval (by simp)⟩

theorem headD_getD {α : Type} (l : List α) (d : α) : l.headD d = l.getD 0 d := by
  cases l <;> rfl

theorem getD_tail {α : Type} (l : List α) (j : ℕ) (d : α) :
    l.tail.getD j d = l.getD (j + 1) d := by
  cases l <;> rfl

theorem getD_set_ne {α : Type} : ∀ (l : List α) (n k : ℕ) (a d : α), k ≠ n →
    (l.set n a).getD k d = l.getD k d
  | [], _, _, _, _, _ => rfl
  | x :: xs, 0, 0, a, d, h => absurd rfl h
  | x :: xs, 0, k + 1, a, d, _ => rfl
  | x :: xs, n + 1, 0, a, d, _ => rfl
  | x :: xs, n + 1, k + 1, a, d, h => by
      simp only [List.set, List.getD_cons_succ]
      exact getD_set_ne xs n k a d (fun hk => h (by rw [hk]))

theorem drop_set_succ {α : Type} : ∀ (n : ℕ) (l : List α) (a : α), n < l.length →
    (l.set n a).drop n = a :: l.drop (n + 1)
  | 0, [], a, h => absurd h (by simp)
  | 0, x :: xs, a, _ => rfl
  | n + 1, [], a, h => absurd h (by simp)
  | n + 1, x :: xs, a, h => by
      simp only [List.set, List.drop_succ_cons]
      exact drop_set_succ n xs a (by simpa using h)

/-- The row update loop equals the claim's indexed formula
row[j] -= lr * di * prev[j]. -/
theorem updateRow_eq_mapIdx (lr di : K) : ∀ (row prev : List K),
    updateRow lr di row prev = row.mapIdx (fun j x => x - lr * di * prev.getD j 0)
  | [], _ => rfl
  | x :: xs, prev => by
      rw [show updateRow lr di (x :: xs) prev =
          (x - lr * di * prev.headD 0) :: updateRow lr di xs prev.tail from rfl]
      rw [List.mapIdx_cons, headD_getD, updateRow_eq_mapIdx lr di xs prev.tail]
      congr 1
      congr 1
      funext j x
      rw [getD_tail]

/-- The weight update loop equals the claim's indexed formula
w[i][j] -= lr * delta[i] * prev[j]. -/
theorem updateMatrix_eq_spec (lr : K) : ∀ (w : List (List K)) (delta prev : List K),
    updateMatrix lr w delta prev = specUpdateW lr w delta prev
  | [], _, _ => rfl
  | row :: w, delta, prev => by
      rw [show updateMatrix lr (row :: w) delta prev =
          updateRow lr (delta.headD 0) row prev ::
            updateMatrix lr w delta.tail prev from rfl]
      unfold specUpdateW
      rw [List.mapIdx_cons, updateRow_eq_mapIdx, headD_getD,
        updateMatrix_eq_spec lr w delta.tail prev]
      congr 1
      unfold specUpdateW
      congr 1
      funext i row
      congr 1
      funext j x
      rw [getD_tail]

/-- The bias update loop equals the claim's formula b[i] -= lr * delta[i]
whenever the bias is no longer than the loop bound (the row count). -/
theorem updateBias_eq_spec (lr : K) : ∀ (b : List K) (rows : ℕ) (delta : List K),
    b.length ≤ rows →
    updateBias lr rows b delta = specUpdateB lr b delta
  | [], rows, delta, _ => by
      cases rows <;> rfl
  | x :: bs, 0, delta, h => by simp at h
  | x :: bs, rows + 1, delta, h => by
      rw [show updateBias lr (rows + 1) (x :: bs) delta =
          (x - lr * delta.headD 0) :: updateBias lr rows bs delta.tail from rfl]
      unfold specUpdateB
      rw [List.mapIdx_cons, headD_getD,
        updateBias_eq_spec lr bs rows delta.tail (by simpa using h)]
      congr 1
      unfold specUpdateB
      congr 1
      funext i x
      rw [getD_tail]

theorem foldl_add_eq_sum (f : ℕ → K) : ∀ (l : List ℕ) (a : K),
    l.foldl (fun acc i => acc + f i) a = a + (l.map f).sum
  | [], a => by simp
  | i :: is, a => by
      simp only [List.foldl_cons, List.map_cons, List.sum_cons]
      rw [foldl_add_eq_sum f is (a + f i)]
      ring

/-- The propagated-error loop equals the claim's formula
new_delta[j] = (Σ_i delta[i] * w[i][j]) * reluDerivative(zprev[j]). -/
theorem propagateDelta_eq_spec (w : List (List K)) (delta zprev : List K) :
    propagateDelta w delta zprev = specNewDelta w delta zprev := by
  unfold propagateDelta specNewDelta
  congr 1
  funext j
  rw [foldl_add_eq_sum, zero_add]
  rfl

/-- The initial delta of the backward pass equals the claim's elementwise
difference whenever the target is long enough. -/
theorem vecSubPad_eq_zipWith : ∀ (a t : List K), a.length ≤ t.length →
    vecSubPad a t = List.zipWith (fun x y => x - y) a t
  | [], t, _ => by cases t <;> rfl
  | x :: xs, [], h => by simp at h
  | x :: xs, y :: ts, h => by
      simp only [vecSubPad, List.zipWith_cons_cons, List.headD_cons, List.tail_cons]
      rw [vecSubPad_eq_zipWith xs ts (by simpa using h)]

/-- dimsOk forces the bias length profile to equal the weight row-count
profile. -/
theorem dimsOk_bias_profile : ∀ (ws : List (List (List K))) (bs : List (List K)) (n : ℕ),
    dimsOk ws bs n = true → bs.map List.length = ws.map List.length
  | [], [], _, _ => rfl
  | [], b :: bs, _, h => by simp [dimsOk] at h
  | w :: ws, [], _, h => by simp [dimsOk] at h
  | w :: ws, b :: bs, n, h => by
      simp only [dimsOk, Bool.and_eq_true, List.all_eq_true, beq_iff_eq] at h
      obtain ⟨⟨-, hb⟩, hrest⟩ := h
      simp only [List.map_cons]
      rw [hb, dimsOk_bias_profile ws bs w.length hrest]

theorem getD_set_self {α : Type} : ∀ (l : List α) (n : ℕ) (a d : α), n < l.length →
    (l.set n a).getD n d = a
  | [], _, _, _, h => absurd h (by simp)
  | x :: xs, 0, _, _, _ => rfl
  | x :: xs, n + 1, a, d, h => by
      simp only [List.set, List.getD_cons_succ]
      exact getD_set_self xs n a d (by simpa using h)

theorem updateMatrix_length (lr : K) (w : List (List K)) (delta prev : List K) :
    (updateMatrix lr w delta prev).length = w.length := by
  have h := congrArg List.length (updateMatrix_profile lr w delta prev)
  simpa using h

theorem backwardLoop_succ (lr : K) (input : List K) (acts zs : List (List K))
    (n : ℕ) (ws : List (List (List K))) (bs : List (List K)) (delta : List K) :
    backwardLoop lr input acts zs (n + 1) ws bs delta =
      backwardLoop lr input acts zs n
        (ws.set n (updateMatrix lr (ws.getD n []) delta
          (if n = 0 then input else acts.getD (n - 1) [])))
        (bs.set n (updateBias lr (ws.getD n []).length (bs.getD n []) delta))
        (if n = 0 then delta
          else propagateDelta
            (updateMatrix lr (ws.getD n []) delta
              (if n = 0 then input else acts.getD (n - 1) []))
            delta (zs.getD (n - 1) [])) := by
  rw [backwardLoop]

theorem specBackRev_last (lr : K) (w : List (List K)) (b prev zprev delta : List K) :
    specBackRev lr [(w, b, prev, zprev)] delta =
      [(specUpdateW lr w delta prev, specUpdateB lr b delta)] := by
  rw [specBackRev]

theorem specBackRev_cons2 (lr : K) (w : List (List K)) (b prev zprev : List K)
    (t : List (List K) × List K × List K × List K)
    (rest : List (List (List K) × List K × List K × List K)) (delta : List K) :
    specBackRev lr ((w, b, prev, zprev) :: t :: rest) delta =
      (specUpdateW lr w delta prev, specUpdateB lr b delta) ::
        specBackRev lr (t :: rest)
          (specNewDelta (specUpdateW lr w delta prev) delta zprev) := by
  rw [specBackRev]

/-- Refinement of the downward in-place layer loop of the backward pass by
the specification-side reverse recursion: with fuel n it rewrites exactly
the first n layers, and its effect on them is the claim's reverse-order
update recursion run on the per-layer data of layers n-1 … 0. -/
theorem backwardLoop_spec (lr : K) (input : List K) (acts zs : List (List K)) :
    ∀ (n : ℕ) (ws : List (List (List K))) (bs : List (List K)) (delta : List K),
      n ≤ ws.length → n ≤ bs.length →
      (∀ k, (bs.getD k []).length = (ws.getD k []).length) →
      backwardLoop lr input acts zs n ws bs delta =
        (((specBackRev lr ((List.range n).map (fun k =>
            (ws.getD k [], bs.getD k [],
              if k = 0 then input else acts.getD (k - 1) [],
              if k = 0 then [] else zs.getD (k - 1) []))).reverse delta).reverse.map
              Prod.fst) ++ ws.drop n,
          ((specBackRev lr ((List.range n).map (fun k =>
            (ws.getD k [], bs.getD k [],
              if k = 0 then input else acts.getD (k - 1) [],
              if k = 0 then [] else zs.getD (k - 1) []))).reverse delta).reverse.map
              Prod.snd) ++ bs.drop n) := by
  intro n
  induction n with
  | zero =>
      intro ws bs delta h1 h2 hb
      simp [backwardLoop, specBackRev]
  | succ n ih =>
      intro ws bs delta h1 h2 hb
      have hnws : n < ws.length := by omega
      have hnbs : n < bs.length := by omega
      rw [backwardLoop_succ]
      have hlen1 : n ≤ (ws.set n (updateMatrix lr (ws.getD n []) delta
          (if n = 0 then input else acts.getD (n - 1) []))).length := by
        rw [List.length_set]
        omega
      have hlen2 : n ≤ (bs.set n (updateBias lr (ws.getD n []).length
          (bs.getD n []) delta)).length := by
        rw [List.length_set]
        omega
      have hbias2 : ∀ k,
          ((bs.set n (updateBias lr (ws.getD n []).length (bs.getD n []) delta)).getD
            k []).length =
          ((ws.set n (updateMatrix lr (ws.getD n []) delta
            (if n = 0 then input else acts.getD (n - 1) []))).getD k []).length := by
        intro k
        by_cases hk : k = n
        · subst hk
          rw [getD_set_self _ _ _ _ hnbs, getD_set_self _ _ _ _ hnws,
            updateBias_length, updateMatrix_length]
          exact hb k
        · rw [getD_set_ne _ _ _ _ _ hk, getD_set_ne _ _ _ _ _ hk]
          exact hb k
      rw [ih _ _ _ hlen1 hlen2 hbias2]
      have htup : (List.range n).map (fun k =>
          ((ws.set n (updateMatrix lr (ws.getD n []) delta
              (if n = 0 then input else acts.getD (n - 1) []))).getD k [],
            (bs.set n (updateBias lr (ws.getD n []).length (bs.getD n []) delta)).getD
              k [],
            if k = 0 then input else acts.getD (k - 1) [],
            if k = 0 then [] else zs.getD (k - 1) [])) =
          (List.range n).map (fun k =>
          (ws.getD k [], bs.getD k [],
            if k = 0 then input else acts.getD (k - 1) [],
            if k = 0 then [] else zs.getD (k - 1) [])) := by
        apply List.map_congr_left
        intro k hk
        have hkn : k ≠ n := by
          simp only [List.mem_range] at hk
          omega
        rw [getD_set_ne _ _ _ _ _ hkn, getD_set_ne _ _ _ _ _ hkn]
      rw [htup, drop_set_succ n ws _ hnws, drop_set_succ n bs _ hnbs]
      rw [List.range_succ, List.map_append]
      simp only [List.map_cons, List.map_nil, List.reverse_append, List.reverse_cons,
        List.reverse_nil, List.nil_append, List.singleton_append]
      by_cases hn : n = 0
      · subst hn
        simp only [List.range_zero, List.map_nil, List.reverse_nil, if_pos rfl]
        rw [specBackRev_last]
        simp only [specBackRev, List.reverse_nil, List.map_nil, List.nil_append,
          List.reverse_cons, List.map_cons, List.map_append]
        rw [← updateMatrix_eq_spec, ← updateBias_eq_spec lr (bs.getD 0 [])
          (ws.getD 0 []).length delta (le_of_eq (hb 0))]
        simp
      · obtain ⟨t, ts, hts⟩ : ∃ t ts, ((List.range n).map (fun k =>
            (ws.getD k [], bs.getD k [],
              if k = 0 then input else acts.getD (k - 1) [],
              if k = 0 then [] else zs.getD (k - 1) []))).reverse = t :: ts := by
          cases hrev : ((List.range n).map (fun k =>
              (ws.getD k [], bs.getD k [],
                if k = 0 then input else acts.getD (k - 1) [],
                if k = 0 then [] else zs.getD (k - 1) []))).reverse with
          | nil =>
              exfalso
              have hlr := congrArg List.length hrev
              simp only [List.length_reverse, List.length_map, List.length_range,
                List.length_nil] at hlr
              exact hn hlr
          | cons t ts => exact ⟨t, ts, rfl⟩
        rw [hts, specBackRev_cons2, ← hts]
        rw [← updateMatrix_eq_spec, ← updateBias_eq_spec lr (bs.getD n [])
          (ws.getD n []).length delta (le_of_eq (hb n)), ← propagateDelta_eq_spec]
        simp only [if_neg hn]
        simp [List.append_assoc]

theorem getLastD_irrel {α : Type} : ∀ (l : List α), l ≠ [] → ∀ (d1 d2 : α),
    l.getLastD d1 = l.getLastD d2
  | [], hne => absurd rfl hne
  | [x], _ => fun d1 d2 => rfl
  | x :: y :: ys, _ => fun d1 d2 => by
      simp only [List.getLastD_cons]

/-- The output of a successful layer loop over at least one layer is the
last recorded activation. -/
theorem forwardLayers_out_last (exp : K → K) : ∀ (ws : List (List (List K))),
    ws ≠ [] → ∀ (bs : List (List K)) (x : List K) (zs as : List (List K)) (out : List K),
    forwardLayers exp ws bs x = .ok (zs, as, out) → out = as.getLastD []
  | [], hne => absurd rfl hne
  | [w], _ => by
      intro bs x zs as out h
      rw [forwardLayers_last] at h
      split at h
      · exact absurd h (by simp)
      · rename_i z hz
        simp only [Except.ok.injEq, Prod.mk.injEq] at h
        obtain ⟨-, h2, h3⟩ := h
        rw [← h2, ← h3]
        rfl
  | w :: w2 :: ws2, _ => by
      intro bs x zs as out h
      rw [forwardLayers_cons2] at h
      split at h
      · exact absurd h (by simp)
      · rename_i z hz
        split at h
        · exact absurd h (by simp)
        · rename_i r hr
          obtain ⟨rz, ra, ro⟩ := r
          simp only [Except.ok.injEq, Prod.mk.injEq] at h
          obtain ⟨-, h2, h3⟩ := h
          have hrec := forwardLayers_out_last exp (w2 :: ws2) (by simp) bs.tail
            (z.map relu) rz ra ro hr
          have hralen : ra.length = (w2 :: ws2).length :=
            (forwardLayers_shapes exp (w2 :: ws2) bs.tail (z.map relu) rz ra ro hr).2.1
          have hrane : ra ≠ [] := by
            intro hnil
            rw [hnil] at hralen
            simp at hralen
          rw [← h2, ← h3, hrec, List.getLastD_cons]
          exact getLastD_irrel ra hrane _ _

/-- The backward pass equals the claim-side recursion whenever the bias
shape profile matches the weights and the target covers the cached final
activation. -/
theorem backward_eq_specBackward (net : Network K) (input target : List K)
    (hb : net.biases.map List.length = net.weights.map List.length)
    (ht : (net.activations.getLastD []).length ≤ target.length) :
    backward_propagation net input target = specBackward net input target := by
  have hlens : net.biases.length = net.weights.length := by
    have h := congrArg List.length hb
    simpa using h
  have hbk : ∀ k, (net.biases.getD k []).length = (net.weights.getD k []).length := by
    intro k
    have h1 := getD_map List.length net.biases k []
    have h2 := getD_map List.length net.weights k []
    simp only [List.length_nil] at h1 h2
    rw [← h1, ← h2, hb]
  unfold backward_propagation specBackward
  rw [vecSubPad_eq_zipWith _ _ ht]
  rw [backwardLoop_spec net.learning_rate input net.activations net.z_values
    net.weights.length net.weights net.biases _ (le_refl _) (le_of_eq hlens.symm) hbk]
  have hdw : net.weights.drop net.weights.length = [] := List.drop_length net.weights
  have hdb : net.biases.drop net.weights.length = [] := by
    rw [← hlens]
    exact List.drop_length net.biases
  rw [hdw, hdb, List.append_nil, List.append_nil]
  rfl

/-- C5. For every call to backward following a successful forward on the
same input (with consistent dimensions and a target of the output's
length), exactly one gradient-descent step is applied, and it is precisely
the claim's step: δ = final activation − target elementwise; then from the
last layer to the first every weight[i][j] is decremented by
lr·δ[i]·prev_activation[j] (prev_activation being the previous layer's
cached activation, or the raw input for layer 0) and every bias[i] by
lr·δ[i], and before moving on the propagated error
new_δ[j] = Σ_i δ[i]·weight[i][j] (the just-updated weights, as the claim's
ordering prescribes) is multiplied by the ReLU derivative of the preceding
layer's cached pre-activation — that is, backward_propagation equals the
specification-side recursion specBackward. -/
theorem backward_one_step (exp : K → K) (net0 net : Network K)
    (input target out : List K)
    (hdims : dimsOk net0.weights net0.biases input.length = true)
    (hw : net0.weights ≠ [])
    (hf : forward_propagation exp net0 input = .ok (net, out))
    (htarget : target.length = out.length) :
    backward_propagation net input target = specBackward net input target := by
  obtain ⟨hwq, hbq, -⟩ := forward_frame exp net0 net input out hf
  have hout : out = net.activations.getLastD [] := by
    unfold forward_propagation at hf
    rcases hfl : forwardLayers exp net0.weights net0.biases input with e | ⟨zs, as, o⟩ <;>
      rw [hfl] at hf
    · exact absurd hf (by simp)
    · simp only [Except.ok.injEq, Prod.mk.injEq] at hf
      obtain ⟨h1, h2⟩ := hf
      have h3 := forwardLayers_out_last exp net0.weights hw net0.biases input
        zs as o hfl
      rw [← h2, h3, ← h1]
  apply backward_eq_specBackward
  · rw [hwq, hbq]
    exact dimsOk_bias_profile net0.weights net0.biases input.length hdims
  · rw [← hout, htarget]

theorem backward_one_step_witness :
    dimsOk netA.weights netA.biases ([2] : List ℚ).length = true ∧
      netA.weights ≠ [] ∧
      forward_propagation expOne netA [2] = .ok (netA1, [1]) ∧
      ([1] : List ℚ).length = ([1] : List ℚ).length ∧
      backward_propagation netA1 [2] [1] = specBackward netA1 [2] [1] :=
  ⟨by decide, by simp [netA], netA_forward_eval, rfl,
    backward_one_step expOne netA netA1 [2] [1] [1] (by decide) (by simp [netA])
      netA_forward_eval rfl⟩

end RedNeuronal
